import Mathlib

/-!
Shallow embedding of the statistics core of `keypoint_moseq` (files
`analysis.py`), restricted to the parts exercised by the claims:

* the Kruskal-Wallis permutation machinery of `run_manual_KW_test`
  together with its helpers `get_tie_correction` (analysis.py:471-491)
  and the scipy helpers it calls (`stats.rankdata`, `stats.tiecorrect`,
  `stats.kruskal`, modelled from their documented behaviour since scipy
  is an external library);
* the pairwise Dunn z statistics of
  `dunns_z_test_permute_within_group_pairs` (analysis.py:598-629);
* the pair enumeration and intersection step of `run_kruskal`
  (analysis.py:782-788);
* the per-frame empirical p-value, the local-maximum changepoint
  extraction and the best-threshold selection inside
  `changepoint_analysis` (analysis.py:1555-1591).

Machine floats are idealised as rationals (and as reals where a square
root occurs); array indexing out of range is modelled with `getD`
defaults, which the theorems never rely on.
-/

namespace KpMoseq

/-- Average-method rank of the value `v` within the sample `x`: the
number of entries strictly below `v`, plus the average of the positions
the copies of `v` occupy, i.e. `countBelow + (countEq + 1)/2`. -/
def rankval (x : List ℚ) (v : ℚ) : ℚ :=
  (x.countP (fun u => decide (u < v)) : ℚ) + ((x.count v : ℚ) + 1) / 2

/-- Embedding of `scipy.stats.rankdata` (average method), as used at
analysis.py:533: each entry is replaced by its average-method rank. -/
def rankdata (x : List ℚ) : List ℚ :=
  x.map (rankval x)

/-- Sum of `t^3 - t` over the groups of tied values of `x` (each distinct
value contributes with `t` its multiplicity).  This is the quantity that
both tie-correction helpers are built from. -/
def tieSum (x : List ℚ) : ℚ :=
  (x.dedup.map (fun v => ((x.count v : ℚ)) ^ 3 - (x.count v : ℚ))).sum

/-- Modelled from the spec: `scipy.stats.tiecorrect` (external library,
called at analysis.py:535), per its documentation the Kruskal-Wallis tie
correction factor `1 - sum(t^3 - t)/(n^3 - n)` over groups of tied
ranks of size `t`, returning `1` for inputs of size below 2. -/
def tiecorrect (x : List ℚ) : ℚ :=
  if x.length < 2 then 1
  else 1 - tieSum x / (((x.length : ℚ)) ^ 3 - (x.length : ℚ))

/-- Embedding of `get_tie_correction` (analysis.py:471-491): value counts
of `x`, summing `vc^3 - vc` over the counts exceeding 1, divided by
`12 * (N_m - 1)`. -/
def get_tie_correction (x : List ℚ) (N_m : ℕ) : ℚ :=
  ((x.dedup.filter (fun v => decide (1 < x.count v))).map
      (fun v => ((x.count v : ℚ)) ^ 3 - (x.count v : ℚ))).sum
    / (12 * ((N_m : ℚ) - 1))

/-- Fancy indexing `r[perm]` (analysis.py:538): reorder the rows of `r`
according to the index list `perm`. -/
def permuteIdx (perm : List ℕ) (r : List ℚ) : List ℚ :=
  perm.map (fun i => r.getD i 0)

/-- Embedding of the `ssbn` accumulation loop of `run_manual_KW_test`
(analysis.py:541-546): successive slices of the rank vector of sizes
given by `n_per_group` (the slice boundaries are the cumulative group
indices), each contributing `(slice sum)^2 / group size`. -/
def ssbnAux : List ℕ → List ℚ → ℚ
  | [], _ => 0
  | n :: ns, r => ((r.take n).sum) ^ 2 / (n : ℚ) + ssbnAux ns (r.drop n)

/-- Embedding of the per-(permutation, syllable) H statistic of
`run_manual_KW_test` (analysis.py:548-550): rank the column, permute the
ranks, form `12/(N(N+1)) * ssbn - 3(N+1)` and divide by the scipy tie
correction of the rank column. -/
def manual_H (x : List ℚ) (n_per_group : List ℕ) (perm : List ℕ) : ℚ :=
  let N := x.length
  let r := rankdata x
  let rp := permuteIdx perm r
  (12 / ((N : ℚ) * ((N : ℚ) + 1)) * ssbnAux n_per_group rp - 3 * ((N : ℚ) + 1))
    / tiecorrect r

/-- Modelled from the spec: the H statistic as the specification words it,
namely `12/(N(N+1)) * sum_g(R_g^2/n_g) - 3(N+1)` divided by
`1 - tie_term` with `tie_term` the value computed by the
`get_tie_correction` helper.  Kept separate from `manual_H` so the two
divisors can be compared. -/
def spec_H (x : List ℚ) (n_per_group : List ℕ) (perm : List ℕ) : ℚ :=
  let N := x.length
  let r := rankdata x
  let rp := permuteIdx perm r
  (12 / ((N : ℚ) * ((N : ℚ) + 1)) * ssbnAux n_per_group rp - 3 * ((N : ℚ) + 1))
    / (1 - get_tie_correction x N)

/-- Embedding of `np.array_split(col, np.cumsum(n_per_group[:-1]))` as used
at analysis.py:557-558: split a column into `len(n_per_group)` consecutive
pieces whose boundaries are the cumulative group sizes (the final piece is
everything past the last boundary). -/
def array_split : List ℕ → List ℚ → List (List ℚ)
  | [], xs => [xs]
  | [_], xs => [xs]
  | n :: ns, xs => xs.take n :: array_split ns (xs.drop n)

/-- Modelled from the spec: `scipy.stats.kruskal` (external library,
called at analysis.py:556-560), per its documentation: it raises
`Need at least two groups in stats.kruskal()` when given fewer than two
samples, ranks the pooled data, raises when all numbers are identical
(zero tie correction), and otherwise returns the tie-corrected H
statistic together with the chi-square survival p-value at
`num_groups - 1` degrees of freedom.  The chi-square survival function is
transcendental, so it is passed in as the argument `chi2sf` (the same
function the manual computation uses, mirroring `stats.chi2.sf`). -/
def scipy_kruskal (chi2sf : ℚ → ℕ → ℚ) (groups : List (List ℚ)) :
    Except String (ℚ × ℚ) :=
  if groups.length < 2 then
    Except.error "Need at least two groups in stats.kruskal()"
  else
    let alldata := groups.flatten
    let n := alldata.length
    let ranked := rankdata alldata
    let T := tiecorrect ranked
    if T = 0 then Except.error "All numbers are identical in kruskal"
    else
      let hstat :=
        (12 / ((n : ℚ) * ((n : ℚ) + 1)) * ssbnAux (groups.map List.length) ranked
            - 3 * ((n : ℚ) + 1)) / T
      Except.ok (hstat, chi2sf hstat (groups.length - 1))

/-- Embedding of `run_manual_KW_test` (analysis.py:494-565) at the
granularity of one permutation and one syllable column: compute the
manual H statistic and its chi-square p-value, spot-check them against
the reference `scipy.stats.kruskal` on the permuted column split by
group, and fail with `manual KW is incorrect` (the assertion at
analysis.py:561-563) unless both agree exactly. -/
def run_manual_KW_test (chi2sf : ℚ → ℕ → ℚ) (x : List ℚ)
    (n_per_group : List ℕ) (perm : List ℕ) : Except String ℚ :=
  let hstat := manual_H x n_per_group perm
  let dof := n_per_group.length - 1
  let p := chi2sf hstat dof
  match scipy_kruskal chi2sf (array_split n_per_group (permuteIdx perm x)) with
  | Except.error e => Except.error e
  | Except.ok kr =>
    if kr.1 = hstat ∧ kr.2 = p then Except.ok hstat
    else Except.error "manual KW is incorrect"

/-! Pairwise Dunn z statistics (`dunns_z_test_permute_within_group_pairs`,
analysis.py:568-629).  A session is a pair of a group label and its row of
per-syllable ranks (one row of `real_ranks`). -/

/-- One session of the grouped usage table: its group label and its row of
per-syllable ranks. -/
abbrev GroupRow := ℕ × List ℚ

/-- Count of sessions carrying group label `g` (both `is_i.sum()` and
`vc.loc[i_n]` in analysis.py:604-615 compute this quantity). -/
def nGroup (rows : List GroupRow) (g : ℕ) : ℕ :=
  (rows.filter (fun r => decide (r.1 = g))).length

/-- Boolean-mask selection `real_ranks[(is_i | is_j)]` (analysis.py:609):
the sessions of the two groups of a pair, in table order. -/
def selPair (rows : List GroupRow) (i j : ℕ) : List GroupRow :=
  rows.filter (fun r => decide (r.1 = i) || decide (r.1 = j))

/-- Column mean over a list of rank rows (`.mean(0)` on a 2-d slice,
analysis.py:612-621). -/
def colMean (rs : List (List ℚ)) (s : ℕ) : ℚ :=
  (rs.map (fun r => r.getD s 0)).sum / (rs.length : ℚ)

/-- Fancy-index row permutation of a rank block (analysis.py:609-610). -/
def permRows (sigma : List ℕ) (rs : List (List ℚ)) : List (List ℚ) :=
  sigma.map (fun k => rs.getD k [])

/-- Embedding of the null z statistic of
`dunns_z_test_permute_within_group_pairs` (analysis.py:609-626) for one
pair `(i, j)`, one permutation `sigma` and syllable `s`: permute the
pair-restricted rank rows, take the absolute difference of column means
of the first `is_i.sum()` rows versus the rest, and divide by
`sqrt((A - X_ties) * B)` with `A = N_m (N_m + 1)/12` and
`B = 1/vc_i + 1/vc_j`. -/
noncomputable def dunns_null_z (rows : List GroupRow) (i j : ℕ)
    (sigma : List ℕ) (X_ties : List ℚ) (N_m : ℕ) (s : ℕ) : ℝ :=
  let A : ℚ := (N_m : ℚ) * ((N_m : ℚ) + 1) / 12
  let ni := nGroup rows i
  let ranksSel := (selPair rows i j).map (fun r => r.2)
  let permuted := permRows sigma ranksSel
  let diff : ℚ := |colMean (permuted.take ni) s - colMean (permuted.drop ni) s|
  let B : ℚ := 1 / (nGroup rows i : ℚ) + 1 / (nGroup rows j : ℚ)
  (diff : ℝ) / Real.sqrt (((A - X_ties.getD s 0) * B : ℚ) : ℝ)

/-- Embedding of the real (unpermuted) z statistic
(analysis.py:618-627): same as `dunns_null_z` with the identity
permutation of the pair-restricted block. -/
noncomputable def dunns_real_z (rows : List GroupRow) (i j : ℕ)
    (X_ties : List ℚ) (N_m : ℕ) (s : ℕ) : ℝ :=
  let A : ℚ := (N_m : ℚ) * ((N_m : ℚ) + 1) / 12
  let ni := nGroup rows i
  let groupRanks := (selPair rows i j).map (fun r => r.2)
  let diff : ℚ := |colMean (groupRanks.take ni) s - colMean (groupRanks.drop ni) s|
  let B : ℚ := 1 / (nGroup rows i : ℚ) + 1 / (nGroup rows j : ℚ)
  (diff : ℝ) / Real.sqrt (((A - X_ties.getD s 0) * B : ℚ) : ℝ)

/-- Mean rank of syllable `s` over the sessions of group `g`, written
directly from the claim (sum over the group divided by its size), for
comparison with the take/drop split the code performs. -/
def groupMeanRank (rows : List GroupRow) (g s : ℕ) : ℚ :=
  ((rows.filter (fun r => decide (r.1 = g))).map (fun r => r.2.getD s 0)).sum
    / (nGroup rows g : ℚ)

/-! Reporting step of `run_kruskal` (analysis.py:782-788) and the pair
enumeration `combinations(group_names, 2)` shared by the Dunn and
reporting loops. -/

/-- Embedding of `itertools.combinations(l, 2)`: all pairs of elements in
list order, each earlier element paired with every later one. -/
def pairUps : List ℕ → List (ℕ × ℕ)
  | [] => []
  | x :: xs => xs.map (fun y => (x, y)) ++ pairUps xs

/-- Embedding of the intersection loop of `run_kruskal`
(analysis.py:782-786) for one pair: the syllables whose corrected
pairwise p-value is below `thresh` and which the omnibus test flagged
(`df_k_real.is_sig`). -/
def intersect_sig_syllables (pvals : List ℚ) (isSig : List Bool)
    (thresh : ℚ) : List ℕ :=
  (List.range pvals.length).filter
    (fun s => decide (pvals.getD s 1 < thresh) && isSig.getD s false)

/-! Changepoint detector internals (analysis.py:1555-1591). -/

/-- Embedding of the empirical p-value of analysis.py:1571-1572:
`1 - (sort(crossings_shuff).searchsorted(v) - 1)/N`.  On the sorted null
sample, `searchsorted` with its default left side returns the number of
null entries strictly below `v`; `N` is `len(crossings)`, the number of
valid frames pooled across sessions. -/
def shuffled_pvalue (shuff : List ℚ) (N : ℕ) (v : ℚ) : ℚ :=
  1 - ((shuff.countP (fun u => decide (u < v)) : ℚ) - 1) / (N : ℚ)

/-- Embedding of the null-construction step of analysis.py:1564-1572 with
the draw of `np.random.uniform(-.1, .1, ...)` made explicit: the shuffled
crossing counts receive the globally drawn jitter, and every true
crossing count is scored against the jittered null.  `changepoint_analysis`
itself has no seed parameter; `jitter` is whatever the process-global
numpy generator produced. -/
def changepoint_pvalues (crossings shuffBase jitter : List ℚ) : List ℚ :=
  let shuff := List.zipWith (fun a b => a + b) shuffBase jitter
  crossings.map (fun v => shuffled_pvalue shuff crossings.length v)

/-- Embedding of `argrelextrema(score, np.greater, order=1)` with numpy's
default clip mode (analysis.py:1556): the indices whose score strictly
exceeds both immediate neighbours, out-of-range neighbour indices being
clipped to the ends (so an endpoint is compared with itself and never
qualifies).  Natural subtraction performs the left clip. -/
def argrelgreater (score : List ℚ) : List ℕ :=
  (List.range score.length).filter (fun i =>
    decide (score.getD (i - 1) 0 < score.getD i 0) &&
    decide (score.getD (min (i + 1) (score.length - 1)) 0 < score.getD i 0))

/-- Embedding of `get_changepoints` (analysis.py:1555-1557): the strict
local maxima of the smoothed change score whose p-value is below
`alpha`. -/
def get_changepoints (score pvals : List ℚ) (alpha : ℚ) : List ℕ :=
  (argrelgreater score).filter (fun p => decide (pvals.getD p 1 < alpha))

/-- Embedding of `np.argmax`: index of the first occurrence of the
largest entry (0 on the empty list, where numpy would raise). -/
def argmaxIdx : List ℕ → ℕ
  | [] => 0
  | a :: rest =>
    let j := argmaxIdx rest
    if rest.getD j 0 > a then j + 1 else 0

/-- Total changepoint count of one candidate threshold:
`sum(map(len, d.values()))` (analysis.py:1588). -/
def totalCount (d : List (List ℕ)) : ℕ := (d.map List.length).sum

/-- Embedding of the best-threshold selection of `changepoint_analysis`
(analysis.py:1587-1591): each candidate threshold contributed per-session
change scores and changepoints; the candidate with the most total
changepoints (first such index, as `np.argmax`) is returned together with
its threshold value. -/
def changepoint_select (allScores : List (List (List ℚ)))
    (allCps : List (List (List ℕ))) (ths : List ℚ) :
    Option (List (List ℚ) × List (List ℕ) × ℚ) :=
  let counts := allCps.map totalCount
  let i := argmaxIdx counts
  match allScores[i]?, allCps[i]?, ths[i]? with
  | some cs, some cp, some th => some (cs, cp, th)
  | _, _, _ => none

/-! Supporting lemmas. -/

theorem sum_filter_map_eq (l : List ℚ) (p : ℚ → Bool) (f : ℚ → ℚ)
    (h : ∀ v ∈ l, p v = false → f v = 0) :
    ((l.filter p).map f).sum = (l.map f).sum := by
  induction l with
  | nil => rfl
  | cons a t ih =>
    have ht : ∀ v ∈ t, p v = false → f v = 0 := fun v hv => h v (List.mem_cons_of_mem _ hv)
    cases hp : p a with
    | true => simp [List.filter_cons, hp, ih ht]
    | false =>
      have hfa : f a = 0 := h a (List.mem_cons_self _ _) hp
      simp [List.filter_cons, hp, ih ht, hfa]

theorem get_tie_correction_eq_tieSum (x : List ℚ) (N : ℕ) :
    get_tie_correction x N = tieSum x / (12 * ((N : ℚ) - 1)) := by
  unfold get_tie_correction tieSum
  congr 1
  apply sum_filter_map_eq
  intro v hv hp
  have hmem : v ∈ x := List.mem_dedup.mp hv
  have h1 : 0 < x.count v := List.count_pos_iff.mpr hmem
  have h2 : ¬ (1 < x.count v) := by simpa using hp
  have hc : x.count v = 1 := by omega
  rw [hc]
  norm_num

theorem countP_lt_add_count_le (x : List ℚ) {v w : ℚ} (hvw : v < w) :
    x.countP (fun u => decide (u < v)) + x.count v
      ≤ x.countP (fun u => decide (u < w)) := by
  induction x with
  | nil => simp
  | cons a t ih =>
    by_cases h1 : a < v <;> by_cases h2 : a = v <;> by_cases h3 : a < w
    · exact absurd (h2 ▸ h1) (lt_irrefl v)
    · exact absurd (h2 ▸ h1) (lt_irrefl v)
    · simp [List.countP_cons, List.count_cons, h1, h2, h3, hvw]
      omega
    · exact absurd (h1.trans hvw) h3
    · simp [List.countP_cons, List.count_cons, h1, h2, h3, hvw]
      omega
    · exact absurd (h2.symm ▸ hvw) h3
    · simp [List.countP_cons, List.count_cons, h1, h2, h3, hvw]
      omega
    · simp [List.countP_cons, List.count_cons, h1, h2, h3, hvw]
      omega

theorem rankval_strict_mono (x : List ℚ) {v w : ℚ} (hv : v ∈ x) (hvw : v < w) :
    rankval x v < rankval x w := by
  have key := countP_lt_add_count_le x hvw
  have hcv : 0 < x.count v := List.count_pos_iff.mpr hv
  unfold rankval
  have k1 : (x.countP (fun u => decide (u < v)) : ℚ) + (x.count v : ℚ)
      ≤ (x.countP (fun u => decide (u < w)) : ℚ) := by exact_mod_cast key
  have k2 : (1 : ℚ) ≤ (x.count v : ℚ) := by exact_mod_cast hcv
  have k3 : (0 : ℚ) ≤ (x.count w : ℚ) := Nat.cast_nonneg _
  linarith

theorem rankval_injOn (x : List ℚ) :
    ∀ v ∈ x, ∀ w ∈ x, rankval x v = rankval x w → v = w := by
  intro v hv w hw h
  rcases lt_trichotomy v w with hlt | he | hgt
  · exact absurd h (ne_of_lt (rankval_strict_mono x hv hlt))
  · exact he
  · exact absurd h.symm (ne_of_lt (rankval_strict_mono x hw hgt))

theorem dedup_map_of_injOn (l : List ℚ) (f : ℚ → ℚ)
    (h : ∀ a ∈ l, ∀ b ∈ l, f a = f b → a = b) :
    (l.map f).dedup = l.dedup.map f := by
  induction l with
  | nil => rfl
  | cons a t ih =>
    have ht : ∀ p ∈ t, ∀ q ∈ t, f p = f q → p = q := fun p hp q hq =>
      h p (List.mem_cons_of_mem _ hp) q (List.mem_cons_of_mem _ hq)
    by_cases hm : a ∈ t
    · have hfm : f a ∈ t.map f := List.mem_map_of_mem f hm
      rw [List.map_cons, List.dedup_cons_of_mem hfm, List.dedup_cons_of_mem hm, ih ht]
    · have hfm : f a ∉ t.map f := by
        intro hc
        rcases List.mem_map.mp hc with ⟨b, hb, hfb⟩
        exact hm ((h b (List.mem_cons_of_mem _ hb) a (List.mem_cons_self _ _) hfb) ▸ hb)
      rw [List.map_cons, List.dedup_cons_of_not_mem hfm,
        List.dedup_cons_of_not_mem hm, List.map_cons, ih ht]

theorem count_map_of_injOn (l : List ℚ) (f : ℚ → ℚ) (v : ℚ)
    (h : ∀ a ∈ l, f a = f v → a = v) :
    (l.map f).count (f v) = l.count v := by
  rw [List.count_eq_countP, List.count_eq_countP, List.countP_map]
  apply List.countP_congr
  intro b hb
  by_cases hbv : b = v
  · subst hbv; simp
  · have hne : f b ≠ f v := fun hc => hbv (h b hb hc)
    simp [Function.comp, hbv, hne]

theorem tieSum_rankdata (x : List ℚ) : tieSum (rankdata x) = tieSum x := by
  unfold tieSum rankdata
  rw [dedup_map_of_injOn x (rankval x) (rankval_injOn x), List.map_map]
  apply congrArg
  apply List.map_congr_left
  intro v hv
  have hmem : v ∈ x := List.mem_dedup.mp hv
  have hcount : (x.map (rankval x)).count (rankval x v) = x.count v :=
    count_map_of_injOn x (rankval x) v (fun a ha => rankval_injOn x a ha v hmem)
  simp [Function.comp, hcount]

/-! Claim C3. -/

/-- Claim C3: for every vector of values, `get_tie_correction` returns the
sum over tied-value groups of size `t` of `t^3 - t`, divided by
`12 * (N - 1)`; it returns 0 when all values are distinct, and
`(2^3 - 2)/(12 * 9)` for a vector of 10 values with exactly one tied pair
of size 2. -/
theorem get_tie_correction_spec :
    (∀ (x : List ℚ) (N : ℕ),
        get_tie_correction x N = tieSum x / (12 * ((N : ℚ) - 1)))
  ∧ (∀ (x : List ℚ) (N : ℕ), x.Nodup → get_tie_correction x N = 0)
  ∧ (∀ x : List ℚ, x.length = 10 →
        (x.dedup.filter (fun v => decide (1 < x.count v))).map (fun v => x.count v)
          = [2] →
        get_tie_correction x 10 = ((2 : ℚ) ^ 3 - 2) / (12 * 9)) := by
  refine ⟨get_tie_correction_eq_tieSum, ?_, ?_⟩
  · intro x N h
    unfold get_tie_correction
    have hnil : x.dedup.filter (fun v => decide (1 < x.count v)) = [] := by
      rw [List.filter_eq_nil_iff]
      intro v hv
      have hmem := List.mem_dedup.mp hv
      have hone := List.count_eq_one_of_mem h hmem
      simp [hone]
    rw [hnil]
    simp
  · intro x hlen hfilt
    unfold get_tie_correction
    have hcomp :
        (x.dedup.filter (fun v => decide (1 < x.count v))).map
            (fun v => ((x.count v : ℚ)) ^ 3 - (x.count v : ℚ))
          = ((x.dedup.filter (fun v => decide (1 < x.count v))).map
              (fun v => x.count v)).map (fun c : ℕ => ((c : ℚ)) ^ 3 - (c : ℚ)) := by
      rw [List.map_map]
      rfl
    rw [hcomp, hfilt]
    norm_num

/-- Claim C3 witness: concrete evaluations obtained from the theorem: an
all-distinct vector gives 0, and a 10-vector with one tied pair gives
`(2^3 - 2)/(12 * 9)`. -/
theorem get_tie_correction_spec_witness :
    get_tie_correction [1, 2, 3] 3 = 0
  ∧ get_tie_correction [1, 1, 2, 3, 4, 5, 6, 7, 8, 9] 10 = ((2 : ℚ) ^ 3 - 2) / (12 * 9) :=
  ⟨get_tie_correction_spec.2.1 [1, 2, 3] 3 (by decide),
   get_tie_correction_spec.2.2 [1, 1, 2, 3, 4, 5, 6, 7, 8, 9] (by decide) (by decide)⟩

/-! Claim C1. -/

/-- Claim C1 (counterexample): with four sessions holding a single tied
pair, two groups of two, and the identity permutation, the H statistic
computed by `run_manual_KW_test` differs from the spec formula, because
the code divides by the scipy tie correction `1 - sum(t^3-t)/(N^3-N)`
while the spec divides by `1 - get_tie_correction`, i.e.
`1 - sum(t^3-t)/(12(N-1))`. -/
theorem kw_tie_divisor_counterexample :
    manual_H [1, 1, 2, 3] [2, 2] [0, 1, 2, 3]
      ≠ spec_H [1, 1, 2, 3] [2, 2] [0, 1, 2, 3] := by
  have hr : rankdata [1, 1, 2, 3] = [3 / 2, 3 / 2, 3, 4] := by
    norm_num [rankdata, rankval, List.countP_cons, List.count_cons]
  norm_num [manual_H, spec_H, hr, tiecorrect, tieSum, get_tie_correction,
    ssbnAux, permuteIdx, List.dedup_cons_of_mem, List.dedup_cons_of_not_mem,
    List.count_cons]

/-- Claim C1 (amended): for every permutation and syllable column with at
least two sessions, the permuted H statistic equals
`12/(N(N+1)) * sum_g(R_g^2/n_g) - 3(N+1)` divided by the standard
Kruskal-Wallis tie factor `1 - sum(t^3 - t)/(N^3 - N)` over the groups of
tied values (the factor `stats.tiecorrect` computes), not by
`1 - get_tie_correction`. -/
theorem kw_tie_divisor_amended (x : List ℚ) (npg perm : List ℕ)
    (hN : 2 ≤ x.length) :
    manual_H x npg perm =
      (12 / ((x.length : ℚ) * ((x.length : ℚ) + 1))
          * ssbnAux npg (permuteIdx perm (rankdata x)) - 3 * ((x.length : ℚ) + 1))
        / (1 - tieSum x / (((x.length : ℚ)) ^ 3 - (x.length : ℚ))) := by
  unfold manual_H tiecorrect
  simp only [List.length_map, rankdata]
  rw [if_neg (by omega)]
  have := tieSum_rankdata x
  unfold rankdata at this
  rw [this]

/-- Claim C1 witness: the amended statement instantiated at the
counterexample input. -/
theorem kw_tie_divisor_amended_witness :
    manual_H [1, 1, 2, 3] [2, 2] [0, 1, 2, 3] =
      (12 / ((([1, 1, 2, 3] : List ℚ).length : ℚ)
            * ((([1, 1, 2, 3] : List ℚ).length : ℚ) + 1))
          * ssbnAux [2, 2] (permuteIdx [0, 1, 2, 3] (rankdata [1, 1, 2, 3]))
          - 3 * ((([1, 1, 2, 3] : List ℚ).length : ℚ) + 1))
        / (1 - tieSum [1, 1, 2, 3]
            / (((([1, 1, 2, 3] : List ℚ).length : ℚ)) ^ 3
                - (([1, 1, 2, 3] : List ℚ).length : ℚ))) :=
  kw_tie_divisor_amended [1, 1, 2, 3] [2, 2] [0, 1, 2, 3] (by decide)

/-! Claim C2. -/

/-- Claim C2: when the reference `scipy.stats.kruskal` run on the
spot-checked (permutation, syllable) pair succeeds, `run_manual_KW_test`
raises the assertion `manual KW is incorrect` exactly when the reference
statistic or p-value differs from the manually computed ones, and
returns normally (with the manual H statistic) exactly when both agree. -/
theorem kw_spot_check_abort_iff (chi2sf : ℚ → ℕ → ℚ) (x : List ℚ)
    (npg perm : List ℕ) (kr : ℚ × ℚ)
    (hk : scipy_kruskal chi2sf (array_split npg (permuteIdx perm x))
        = Except.ok kr) :
    (run_manual_KW_test chi2sf x npg perm
          = Except.error "manual KW is incorrect"
        ↔ ¬ (kr.1 = manual_H x npg perm
              ∧ kr.2 = chi2sf (manual_H x npg perm) (npg.length - 1)))
  ∧ (run_manual_KW_test chi2sf x npg perm
          = Except.ok (manual_H x npg perm)
        ↔ (kr.1 = manual_H x npg perm
              ∧ kr.2 = chi2sf (manual_H x npg perm) (npg.length - 1))) := by
  unfold run_manual_KW_test
  rw [hk]
  by_cases h : kr.1 = manual_H x npg perm
      ∧ kr.2 = chi2sf (manual_H x npg perm) (npg.length - 1)
  · simp [h]
  · simp [h]

/-- Claim C2 witness: on a concrete agreement instance the function
returns normally. -/
theorem kw_spot_check_abort_iff_witness :
    run_manual_KW_test (fun q d => q * (d : ℚ)) [1, 2, 3, 4] [2, 2] [0, 1, 2, 3]
      = Except.ok (manual_H [1, 2, 3, 4] [2, 2] [0, 1, 2, 3]) := by
  have hman : manual_H [1, 2, 3, 4] [2, 2] [0, 1, 2, 3] = 12 / 5 := by
    norm_num [manual_H, rankdata, rankval, tiecorrect, tieSum, ssbnAux, permuteIdx,
      List.countP_cons, List.count_cons, List.dedup_cons_of_mem,
      List.dedup_cons_of_not_mem]
  have hk : scipy_kruskal (fun q d => q * (d : ℚ))
      (array_split [2, 2] (permuteIdx [0, 1, 2, 3] [1, 2, 3, 4]))
        = Except.ok (12 / 5, 12 / 5) := by
    norm_num [scipy_kruskal, array_split, permuteIdx, rankdata, rankval,
      tiecorrect, tieSum, ssbnAux, List.countP_cons, List.count_cons,
      List.dedup_cons_of_mem, List.dedup_cons_of_not_mem]
  exact (kw_spot_check_abort_iff (fun q d => q * (d : ℚ)) [1, 2, 3, 4] [2, 2]
      [0, 1, 2, 3] (12 / 5, 12 / 5) hk).2.mpr (by rw [hman]; norm_num)

/-! Claim C8. -/

/-- Claim C8 (counterexample): with a single group the pipeline does not
return an empty result: the spot check against `scipy.stats.kruskal`
raises `Need at least two groups in stats.kruskal()`. -/
theorem kw_single_group_raises_counterexample :
    run_manual_KW_test (fun q _ => q) [1, 2, 3, 4] [4] [0, 1, 2, 3]
      = Except.error "Need at least two groups in stats.kruskal()" := rfl

/-- Claim C8 (amended): whenever fewer than two groups are present,
`run_manual_KW_test` (and hence `run_kruskal`, which calls it
unconditionally) raises the scipy error instead of returning an empty
result. -/
theorem kw_single_group_raises (chi2sf : ℚ → ℕ → ℚ) (x : List ℚ)
    (npg perm : List ℕ) (h : npg.length < 2) :
    run_manual_KW_test chi2sf x npg perm
      = Except.error "Need at least two groups in stats.kruskal()" := by
  have hsplit : (array_split npg (permuteIdx perm x)).length = 1 := by
    rcases npg with _ | ⟨n, _ | ⟨m, t⟩⟩
    · rfl
    · rfl
    · simp only [List.length_cons] at h
      omega
  have hk : scipy_kruskal chi2sf (array_split npg (permuteIdx perm x))
      = Except.error "Need at least two groups in stats.kruskal()" := by
    unfold scipy_kruskal
    rw [if_pos (by rw [hsplit]; norm_num)]
  unfold run_manual_KW_test
  rw [hk]

/-- Claim C8 witness: the amended statement at a concrete single-group
input. -/
theorem kw_single_group_raises_witness :
    run_manual_KW_test (fun _ _ => (0 : ℚ)) [5, 6] [2] [0, 1]
      = Except.error "Need at least two groups in stats.kruskal()" :=
  kw_single_group_raises (fun _ _ => (0 : ℚ)) [5, 6] [2] [0, 1] (by decide)

/-! Claim C9. -/

/-- Claim C9: every empirical p-value computed against an N-element null
sample lies in `[1/N, 1 + 1/N]` — in particular it is positive, never
zero — and it can exceed 1 (it equals `1 + 1/N` when no null entry lies
below the observed value). -/
theorem shuffled_pvalue_bounds :
    (∀ (shuff : List ℚ) (N : ℕ) (v : ℚ), shuff.length = N → 1 ≤ N →
        1 / (N : ℚ) ≤ shuffled_pvalue shuff N v
          ∧ shuffled_pvalue shuff N v ≤ 1 + 1 / (N : ℚ)
          ∧ 0 < shuffled_pvalue shuff N v)
  ∧ 1 < shuffled_pvalue [5] 1 0 := by
  constructor
  · intro shuff N v hlen hN
    have hN0 : (0 : ℚ) < (N : ℚ) := by exact_mod_cast hN
    unfold shuffled_pvalue
    set c := shuff.countP (fun u => decide (u < v)) with hc
    have hcN : c ≤ N := hlen ▸ List.countP_le_length _
    have hc1 : ((c : ℚ)) ≤ (N : ℚ) := by exact_mod_cast hcN
    have hc0 : (0 : ℚ) ≤ (c : ℚ) := Nat.cast_nonneg c
    have hdiv1 : (c : ℚ) / N ≤ 1 := (div_le_one hN0).mpr hc1
    have hdiv0 : (0 : ℚ) ≤ (c : ℚ) / N := by positivity
    have hinv : (0 : ℚ) < 1 / (N : ℚ) := by positivity
    rw [sub_div]
    refine ⟨?_, ?_, ?_⟩ <;> linarith
  · norm_num [shuffled_pvalue]

/-- Claim C9 witness: the bounds at a concrete two-frame null. -/
theorem shuffled_pvalue_bounds_witness :
    1 / ((2 : ℕ) : ℚ) ≤ shuffled_pvalue [1, 2] 2 (3 / 2)
      ∧ shuffled_pvalue [1, 2] 2 (3 / 2) ≤ 1 + 1 / ((2 : ℕ) : ℚ)
      ∧ 0 < shuffled_pvalue [1, 2] 2 (3 / 2) :=
  shuffled_pvalue_bounds.1 [1, 2] 2 (3 / 2) (by decide) (by decide)

/-! Claim C7. -/

/-- Claim C7 (counterexample): the per-threshold p-values depend on the
jitter values drawn from the process-global numpy generator — with
identical explicit inputs, two different global draws yield different
p-values, so the detector is not a function of its inputs and a seed (it
has no seed parameter). -/
theorem changepoint_global_rng_counterexample :
    changepoint_pvalues [1, 2] [1, 1] [1 / 20, 1 / 20]
      ≠ changepoint_pvalues [1, 2] [1, 1] [-(1 / 20), -(1 / 20)] := by
  norm_num [changepoint_pvalues, shuffled_pvalue, List.zipWith, List.countP_cons]

/-- Claim C7 (amended): the p-value stage is a deterministic function of
the inputs together with the globally drawn jitter array (so two calls
coincide exactly when the process-global draws coincide), and it
genuinely depends on that jitter. -/
theorem changepoint_jitter_determinism :
    (∀ (crossings base j1 j2 : List ℚ), j1 = j2 →
        changepoint_pvalues crossings base j1
          = changepoint_pvalues crossings base j2)
  ∧ (∃ j1 j2 : List ℚ,
        changepoint_pvalues [0] [0] j1 ≠ changepoint_pvalues [0] [0] j2) := by
  constructor
  · intro c b j1 j2 h
    rw [h]
  · refine ⟨[1], [-1], ?_⟩
    norm_num [changepoint_pvalues, shuffled_pvalue, List.zipWith, List.countP_cons]

/-- Claim C7 witness: the determinism part at a concrete input. -/
theorem changepoint_jitter_determinism_witness :
    changepoint_pvalues [3] [1] [0] = changepoint_pvalues [3] [1] [0] :=
  changepoint_jitter_determinism.1 [3] [1] [0] [0] rfl

/-! Claim C10. -/

theorem mem_changepoints_interior (score pvals : List ℚ) (alpha : ℚ) (p : ℕ)
    (hp : p ∈ get_changepoints score pvals alpha) :
    0 < p ∧ p + 1 < score.length := by
  unfold get_changepoints argrelgreater at hp
  rw [List.mem_filter] at hp
  obtain ⟨hp1, _⟩ := hp
  rw [List.mem_filter] at hp1
  obtain ⟨hpr, hcond⟩ := hp1
  rw [List.mem_range] at hpr
  rw [Bool.and_eq_true, decide_eq_true_eq, decide_eq_true_eq] at hcond
  obtain ⟨hl, hr⟩ := hcond
  constructor
  · by_contra h0
    have hp0 : p = 0 := by omega
    rw [hp0] at hl
    simp at hl
  · by_contra hge
    have heq : min (p + 1) (score.length - 1) = p := by omega
    rw [heq] at hr
    exact absurd hr (lt_irrefl _)

/-- Claim C10: every changepoint index is strictly interior — positive
and strictly before the last frame, since a frame qualifies only when its
score strictly exceeds both clipped neighbours — and any session with
fewer than 3 frames yields no changepoints. -/
theorem changepoints_interior :
    (∀ (score pvals : List ℚ) (alpha : ℚ) (p : ℕ),
        p ∈ get_changepoints score pvals alpha →
        0 < p ∧ p + 1 < score.length)
  ∧ (∀ (score pvals : List ℚ) (alpha : ℚ), score.length < 3 →
        get_changepoints score pvals alpha = []) := by
  refine ⟨mem_changepoints_interior, ?_⟩
  intro score pvals alpha hlen
  apply List.eq_nil_iff_forall_not_mem.mpr
  intro p hp
  obtain ⟨h1, h2⟩ := mem_changepoints_interior score pvals alpha p hp
  omega

/-- Claim C10 witness: a concrete three-frame session with an interior
peak. -/
theorem changepoints_interior_witness :
    (1 ∈ get_changepoints [0, 1, 0] [1, 0, 1] 1)
      ∧ (0 < 1 ∧ 1 + 1 < ([0, 1, 0] : List ℚ).length) := by
  have hmem : 1 ∈ get_changepoints [0, 1, 0] [1, 0, 1] 1 := by decide
  exact ⟨hmem, changepoints_interior.1 [0, 1, 0] [1, 0, 1] 1 1 hmem⟩

/-! Claim C5. -/

theorem argmaxIdx_lt (l : List ℕ) (h : l ≠ []) : argmaxIdx l < l.length := by
  induction l with
  | nil => exact absurd rfl h
  | cons a rest ih =>
    simp only [argmaxIdx]
    by_cases hc : rest.getD (argmaxIdx rest) 0 > a
    · rw [if_pos hc]
      have hrne : rest ≠ [] := by
        intro he
        rw [he] at hc
        exact Nat.not_lt_zero a hc
      simpa using Nat.succ_lt_succ (ih hrne)
    · rw [if_neg hc]
      simp

theorem argmaxIdx_spec (l : List ℕ) :
    ∀ k, k < l.length → l.getD k 0 ≤ l.getD (argmaxIdx l) 0 := by
  induction l with
  | nil =>
    intro k hk
    simp at hk
  | cons a rest ih =>
    intro k hk
    simp only [argmaxIdx]
    by_cases hc : rest.getD (argmaxIdx rest) 0 > a
    · rw [if_pos hc]
      cases k with
      | zero => simpa using le_of_lt hc
      | succ k2 =>
        have hk2 : k2 < rest.length := by simpa using hk
        simpa using ih k2 hk2
    · rw [if_neg hc]
      push_neg at hc
      cases k with
      | zero => simp
      | succ k2 =>
        have hk2 : k2 < rest.length := by simpa using hk
        have := ih k2 hk2
        simp only [List.getD_cons_succ, List.getD_cons_zero]
        exact le_trans this hc

/-- Claim C5: the selection step of `changepoint_analysis` always returns
a result when at least one threshold was scanned — its changepoints,
change scores and threshold come from one common candidate index whose
total changepoint count (summed across sessions) is greatest — and this
holds in particular when every candidate produced zero changepoints. -/
theorem changepoint_select_best (allScores : List (List (List ℚ)))
    (allCps : List (List (List ℕ))) (ths : List ℚ)
    (h1 : allScores.length = allCps.length) (h2 : ths.length = allCps.length)
    (h3 : 0 < allCps.length) :
    ∃ cs cp th, changepoint_select allScores allCps ths = some (cs, cp, th)
      ∧ ∃ i, i < allCps.length ∧ allScores[i]? = some cs
          ∧ allCps[i]? = some cp ∧ ths[i]? = some th
          ∧ ∀ j, j < allCps.length →
              totalCount (allCps.getD j []) ≤ totalCount cp := by
  have hclen : (allCps.map totalCount).length = allCps.length :=
    List.length_map _ _
  have hcne : allCps.map totalCount ≠ [] := by
    intro he
    rw [he] at hclen
    simp at hclen
    omega
  have hilt : argmaxIdx (allCps.map totalCount) < allCps.length :=
    hclen ▸ argmaxIdx_lt _ hcne
  have hsc : argmaxIdx (allCps.map totalCount) < allScores.length := by omega
  have hth : argmaxIdx (allCps.map totalCount) < ths.length := by omega
  have e1 : allScores[argmaxIdx (allCps.map totalCount)]?
      = some (allScores.get ⟨argmaxIdx (allCps.map totalCount), hsc⟩) := by
    rw [List.getElem?_eq_getElem hsc]
    rfl
  have e2 : allCps[argmaxIdx (allCps.map totalCount)]?
      = some (allCps.get ⟨argmaxIdx (allCps.map totalCount), hilt⟩) := by
    rw [List.getElem?_eq_getElem hilt]
    rfl
  have e3 : ths[argmaxIdx (allCps.map totalCount)]?
      = some (ths.get ⟨argmaxIdx (allCps.map totalCount), hth⟩) := by
    rw [List.getElem?_eq_getElem hth]
    rfl
  refine ⟨allScores.get ⟨_, hsc⟩, allCps.get ⟨_, hilt⟩, ths.get ⟨_, hth⟩, ?_,
    argmaxIdx (allCps.map totalCount), hilt, e1, e2, e3, ?_⟩
  · simp only [changepoint_select, e1, e2, e3]
  · intro j hj
    have hspec := argmaxIdx_spec (allCps.map totalCount) j (by omega)
    have hj2 : (allCps.map totalCount).getD j 0 = totalCount (allCps.getD j []) := by
      have : totalCount ([] : List (List ℕ)) = 0 := rfl
      rw [← this, List.getD_map]
    have hi2 : (allCps.map totalCount).getD (argmaxIdx (allCps.map totalCount)) 0
        = totalCount (allCps.get ⟨argmaxIdx (allCps.map totalCount), hilt⟩) := by
      have h0 : totalCount ([] : List (List ℕ)) = 0 := rfl
      rw [← h0, List.getD_map]
      rw [List.getD_eq_getElem _ _ hilt]
      rfl
    rw [hj2, hi2] at hspec
    exact hspec

/-- Claim C5 witness: two scanned thresholds, both yielding zero
changepoints, still produce a selected result. -/
theorem changepoint_select_best_witness :
    ∃ cs cp th,
      changepoint_select [[[0]], [[0]]] [[[]], [[]]] [1, 2] = some (cs, cp, th)
      ∧ ∃ i, i < ([[[]], [[]]] : List (List (List ℕ))).length
          ∧ [[[0]], [[0]]][i]? = some cs
          ∧ ([[[]], [[]]] : List (List (List ℕ)))[i]? = some cp
          ∧ [(1 : ℚ), 2][i]? = some th
          ∧ ∀ j, j < ([[[]], [[]]] : List (List (List ℕ))).length →
              totalCount (([[[]], [[]]] : List (List (List ℕ))).getD j [])
                ≤ totalCount cp :=
  changepoint_select_best [[[0]], [[0]]] [[[]], [[]]] [1, 2]
    (by decide) (by decide) (by decide)

/-! Claim C6. -/

theorem mem_pairUps (l : List ℕ) (a b : ℕ) (h : (a, b) ∈ pairUps l) :
    a ∈ l ∧ b ∈ l := by
  induction l with
  | nil => simp [pairUps] at h
  | cons x xs ih =>
    simp only [pairUps, List.mem_append] at h
    rcases h with h | h
    · rcases List.mem_map.mp h with ⟨y, hy, he⟩
      have hxa : x = a := congrArg Prod.fst he
      have hyb : y = b := congrArg Prod.snd he
      subst hxa
      subst hyb
      exact ⟨List.mem_cons_self _ _, List.mem_cons_of_mem _ hy⟩
    · have := ih h
      exact ⟨List.mem_cons_of_mem _ this.1, List.mem_cons_of_mem _ this.2⟩

theorem count_pairUps_left_not_mem (l : List ℕ) (a b : ℕ) (h : a ∉ l) :
    (pairUps l).count (a, b) = 0 := by
  apply List.count_eq_zero.mpr
  intro hc
  exact h (mem_pairUps l a b hc).1

theorem count_map_pair (xs : List ℕ) (c b : ℕ) :
    (xs.map (fun y => (c, y))).count (c, b) = xs.count b := by
  induction xs with
  | nil => rfl
  | cons z t ih =>
    simp only [List.map_cons, List.count_cons, ih, beq_iff_eq, Prod.mk.injEq]
    by_cases hz : b = z
    · simp [hz]
    · simp [hz]

theorem count_pairUps (l : List ℕ) : l.Nodup → ∀ a b, a ∈ l → b ∈ l → a ≠ b →
    (pairUps l).count (a, b) + (pairUps l).count (b, a) = 1 := by
  induction l with
  | nil =>
    intro _ a b ha
    simp at ha
  | cons x xs ih =>
    intro hl a b ha hb hab
    obtain ⟨hxnot, hxs⟩ := List.nodup_cons.mp hl
    simp only [pairUps, List.count_append]
    rcases List.mem_cons.mp ha with rfl | hax
    · have hbxs : b ∈ xs := by
        rcases List.mem_cons.mp hb with h | h
        · exact absurd h.symm hab
        · exact h
      have c1 : (xs.map (fun y => (a, y))).count (a, b) = xs.count b :=
        count_map_pair xs a b
      have c2 : (pairUps xs).count (a, b) = 0 :=
        count_pairUps_left_not_mem xs a b hxnot
      have c3 : (xs.map (fun y => (a, y))).count (b, a) = 0 := by
        apply List.count_eq_zero.mpr
        intro hc
        rcases List.mem_map.mp hc with ⟨y, hy, he⟩
        exact hab (congrArg Prod.fst he)
      have c4 : (pairUps xs).count (b, a) = 0 := by
        apply List.count_eq_zero.mpr
        intro hc
        exact hxnot (mem_pairUps xs b a hc).2
      rw [c1, c2, c3, c4]
      have := List.count_eq_one_of_mem hxs hbxs
      omega
    · rcases List.mem_cons.mp hb with rfl | hbx
      · have c1 : (xs.map (fun y => (b, y))).count (a, b) = 0 := by
          apply List.count_eq_zero.mpr
          intro hc
          rcases List.mem_map.mp hc with ⟨y, hy, he⟩
          exact hab (congrArg Prod.fst he).symm
        have c2 : (pairUps xs).count (a, b) = 0 := by
          apply List.count_eq_zero.mpr
          intro hc
          exact hxnot (mem_pairUps xs a b hc).2
        have c3 : (xs.map (fun y => (b, y))).count (b, a) = xs.count a :=
          count_map_pair xs b a
        have c4 : (pairUps xs).count (b, a) = 0 :=
          count_pairUps_left_not_mem xs b a hxnot
        rw [c1, c2, c3, c4]
        have := List.count_eq_one_of_mem hxs hax
        omega
      · have c1 : (xs.map (fun y => (x, y))).count (a, b) = 0 := by
          apply List.count_eq_zero.mpr
          intro hc
          rcases List.mem_map.mp hc with ⟨y, hy, he⟩
          have hfst : x = a := congrArg Prod.fst he
          refine hxnot ?_
          rw [hfst]
          exact hax
        have c2 : (xs.map (fun y => (x, y))).count (b, a) = 0 := by
          apply List.count_eq_zero.mpr
          intro hc
          rcases List.mem_map.mp hc with ⟨y, hy, he⟩
          have hfst : x = b := congrArg Prod.fst he
          refine hxnot ?_
          rw [hfst]
          exact hbx
        rw [c1, c2]
        have := ih hxs a b hax hbx hab
        omega

/-- Claim C6: every syllable reported significant for a pair is flagged
by the omnibus test (`is_sig`), and the pair keys produced by
`combinations(group_names, 2)` contain each unordered pair of distinct
group names exactly once — in particular no reversed duplicate. -/
theorem run_kruskal_reporting_invariants :
    (∀ (pv : List ℚ) (sig : List Bool) (th : ℚ) (s : ℕ),
        s ∈ intersect_sig_syllables pv sig th → sig.getD s false = true)
  ∧ (∀ (l : List ℕ), l.Nodup → ∀ a b, a ∈ l → b ∈ l → a ≠ b →
        (pairUps l).count (a, b) + (pairUps l).count (b, a) = 1) := by
  constructor
  · intro pv sig th s hs
    unfold intersect_sig_syllables at hs
    rw [List.mem_filter] at hs
    have hcond := hs.2
    rw [Bool.and_eq_true] at hcond
    exact hcond.2
  · exact count_pairUps

/-- Claim C6 witness: the omnibus-gating property and the
exactly-once pair-key property at concrete inputs. -/
theorem run_kruskal_reporting_invariants_witness :
    ([false, true].getD 1 false = true)
      ∧ ((pairUps [0, 1, 2]).count (0, 2) + (pairUps [0, 1, 2]).count (2, 0) = 1) :=
  ⟨run_kruskal_reporting_invariants.1 [1, 0] [false, true] 1 1 (by decide),
   run_kruskal_reporting_invariants.2 [0, 1, 2] (by decide) 0 2 (by decide)
     (by decide) (by decide)⟩

/-! Claim C4. -/

/-- Claim C4: for a pair of groups `(i, j)` whose sessions appear grouped
(all group-`i` rows before all group-`j` rows inside the pair selection,
as the pivot table guarantees), the real Dunn z statistic per syllable is
the absolute difference of the two groups' mean ranks divided by
`sqrt((A - tie_term) * (1/n_i + 1/n_j))` with `A = N(N+1)/12`, and the
null z statistic is the same functional applied to the permuted split of
the pair block — the ranks and tie terms being those precomputed over
all sessions. -/
theorem dunns_z_formula (rows : List GroupRow) (i j : ℕ) (sigma : List ℕ)
    (X_ties : List ℚ) (N_m : ℕ) (s : ℕ)
    (hsort : selPair rows i j
        = rows.filter (fun r => decide (r.1 = i))
            ++ rows.filter (fun r => decide (r.1 = j))) :
    dunns_real_z rows i j X_ties N_m s
      = ((|groupMeanRank rows i s - groupMeanRank rows j s| : ℚ) : ℝ)
          / Real.sqrt ((((N_m : ℚ) * ((N_m : ℚ) + 1) / 12 - X_ties.getD s 0)
              * (1 / (nGroup rows i : ℚ) + 1 / (nGroup rows j : ℚ)) : ℚ) : ℝ)
  ∧ dunns_null_z rows i j sigma X_ties N_m s
      = ((|colMean ((permRows sigma ((selPair rows i j).map (fun r => r.2))).take
              (nGroup rows i)) s
            - colMean ((permRows sigma ((selPair rows i j).map (fun r => r.2))).drop
              (nGroup rows i)) s| : ℚ) : ℝ)
          / Real.sqrt ((((N_m : ℚ) * ((N_m : ℚ) + 1) / 12 - X_ties.getD s 0)
              * (1 / (nGroup rows i : ℚ) + 1 / (nGroup rows j : ℚ)) : ℚ) : ℝ) := by
  constructor
  · simp only [dunns_real_z]
    congr 1
    norm_cast
    rw [hsort, List.map_append]
    have hlen : ((rows.filter (fun r => decide (r.1 = i))).map
        (fun r => r.2)).length = nGroup rows i := by
      rw [List.length_map]
      rfl
    rw [← hlen, List.take_left, List.drop_left]
    have h1 : colMean ((rows.filter (fun r => decide (r.1 = i))).map
        (fun r => r.2)) s = groupMeanRank rows i s := by
      unfold colMean groupMeanRank nGroup
      rw [List.map_map, List.length_map]
      rfl
    have h2 : colMean ((rows.filter (fun r => decide (r.1 = j))).map
        (fun r => r.2)) s = groupMeanRank rows j s := by
      unfold colMean groupMeanRank nGroup
      rw [List.map_map, List.length_map]
      rfl
    rw [h1, h2]
  · rfl

/-- Claim C4 witness: the real z formula at a concrete sorted two-group
table. -/
theorem dunns_z_formula_witness :
    dunns_real_z [(0, [1]), (0, [2]), (1, [3]), (1, [4])] 0 1 [0] 4 0
      = ((|groupMeanRank [(0, [1]), (0, [2]), (1, [3]), (1, [4])] 0 0
            - groupMeanRank [(0, [1]), (0, [2]), (1, [3]), (1, [4])] 1 0| : ℚ) : ℝ)
          / Real.sqrt (((((4 : ℕ) : ℚ) * (((4 : ℕ) : ℚ) + 1) / 12
                - [(0 : ℚ)].getD 0 0)
              * (1 / (nGroup [(0, [1]), (0, [2]), (1, [3]), (1, [4])] 0 : ℚ)
                  + 1 / (nGroup [(0, [1]), (0, [2]), (1, [3]), (1, [4])] 1 : ℚ)) : ℚ) : ℝ) :=
  (dunns_z_formula [(0, [1]), (0, [2]), (1, [3]), (1, [4])] 0 1 [0, 1, 2, 3]
    [0] 4 0 (by decide)).1

end KpMoseq
